import Mathlib

/-!
Verification of the autocrop utility in src/utils/image-crop.py.

The program decodes an image to an RGB raster, detects the background
color by a majority vote over the four corner pixels
(max over the Python set of corners, keyed by list count),
builds a boolean foreground mask (per-channel int16 absolute difference
from the background strictly greater than the tolerance on any channel),
computes the bounding box of the mask and crops to it, returning the
original raster with a warning when the mask is empty.

The embedding below is executable and follows the source line by line.
The Python set of corner tuples is modelled bit-exactly: CPython tuple
hashing (the xxHash based combiner over the integer channel values) and
the 8-slot open-addressing table that a four-element set occupies, so
that set iteration order, and hence tie-breaking in detect_bg_color,
is the one the interpreter produces.
-/

/-- An RGB pixel: the three 8-bit channel values as natural numbers. -/
def Color : Type := ℕ × ℕ × ℕ

instance : DecidableEq Color := instDecidableEqProd

/-- A decoded raster: height, width and the pixel grid, total on ℕ
with junk values outside the h times w rectangle. -/
structure Raster where
  h : ℕ
  w : ℕ
  pix : ℕ → ℕ → Color

/-- Every in-range pixel has 8-bit channels, as holds for any decoded
RGB image. -/
def Raster.Valid (r : Raster) : Prop :=
  ∀ y < r.h, ∀ x < r.w,
    (r.pix y x).1 ≤ 255 ∧ (r.pix y x).2.1 ≤ 255 ∧ (r.pix y x).2.2 ≤ 255

instance (r : Raster) : Decidable r.Valid := by
  unfold Raster.Valid; infer_instance

/-- PIL Image.crop with box (left, upper, right, lower): the result has
size (right - left) times (lower - upper) and its pixel (x, y) is the
source pixel (x + left, y + upper). -/
def Raster.crop (r : Raster) (left upper right lower : ℕ) : Raster :=
  ⟨lower - upper, right - left, fun y x => r.pix (y + upper) (x + left)⟩

/-- The four corner pixels in source order: top-left, top-right,
bottom-left, bottom-right (lines 15-20 of image-crop.py). -/
def cornersOf (img : Raster) : List Color :=
  [img.pix 0 0, img.pix 0 (img.w - 1),
   img.pix (img.h - 1) 0, img.pix (img.h - 1) (img.w - 1)]

/-! ### CPython hashing and set model

The corner colors are 3-tuples of 8-bit integers; hash of a small
nonnegative int is the int itself, and the tuple hash is the CPython
xxHash-style combiner over the lane hashes, on 64-bit unsigned words. -/

/-- The word size of CPython hash arithmetic. -/
def M64 : ℕ := 2 ^ 64

/-- Rotate a 64-bit word left by 31. -/
def rot31 (x : ℕ) : ℕ := ((x <<< 31) ||| (x >>> 33)) % M64

/-- One lane of the CPython tuple hash combiner. -/
def hashLane (acc lane : ℕ) : ℕ :=
  rot31 ((acc + lane * 14029467366897019727) % M64) * 11400714785074694791 % M64

/-- CPython hash of a 3-tuple of small nonnegative integers, as an
unsigned 64-bit word. -/
def pyTupleHash3 (a b c : ℕ) : ℕ :=
  let acc := hashLane (hashLane (hashLane 2870177450012600261 a) b) c
  let acc := (acc + (3 ^^^ (2870177450012600261 ^^^ 3527539))) % M64
  if acc = M64 - 1 then 1546275796 else acc

/-- Hash of a corner color tuple. -/
def pyHashColor (c : Color) : ℕ := pyTupleHash3 c.1 c.2.1 c.2.2

/-- The 8-slot hash table a CPython set of at most four elements lives
in; a slot holds the stored hash and the key. -/
def Table8 : Type := Fin 8 → Option (ℕ × Color)

/-- The empty set table. -/
def emptyTable : Table8 := fun _ => none

/-- The next probe index: i * 5 + 1 + perturb, masked to the table. -/
def nextIdx (i : Fin 8) (p : ℕ) : Fin 8 :=
  ⟨(5 * i.val + 1 + p) % 8, Nat.mod_lt _ (by norm_num)⟩

/-- CPython set insertion probe loop: stop at an empty slot (store the
entry) or at an equal entry (the key is already present); otherwise
shift the perturb and move to the next index. Fuel 64 is far above the
21 probes that always suffice in an 8-slot table with a free slot. -/
def probeIns (h : ℕ) (key : Color) : ℕ → Fin 8 → ℕ → Table8 → Table8
  | 0, _, _, t => t
  | fuel + 1, i, p, t =>
    match t i with
    | none => Function.update t i (some (h, key))
    | some e =>
      if e.1 = h ∧ e.2 = key then t
      else probeIns h key fuel (nextIdx i (p >>> 5)) (p >>> 5) t

/-- Insert one color into the set table, starting at hash mod 8 with
perturb equal to the hash. -/
def insColor (t : Table8) (c : Color) : Table8 :=
  probeIns (pyHashColor c) c 64
    ⟨pyHashColor c % 8, Nat.mod_lt _ (by norm_num)⟩ (pyHashColor c) t

/-- The table of the CPython set built from a list of colors, inserted
in list order. -/
def buildSet (l : List Color) : Table8 := l.foldl insColor emptyTable

/-- Set iteration order: scan the 8 slots from index 0 upward and yield
the stored keys. -/
def setElems (t : Table8) : List Color :=
  (List.finRange 8).filterMap fun j => (t j).map Prod.snd

/-- Python max(elems, key=cnt): the first element of elems attaining the
maximal key, the empty case being unreachable in the program. -/
def maxByCount (cnt : Color → ℕ) (elems : List Color) : Color :=
  match elems with
  | [] => (0, 0, 0)
  | e :: es => es.foldl (fun best c => if cnt c > cnt best then c else best) e

/-- detect_bg_color (lines 12-23): the most common corner color,
computed as max over the set of corners keyed by corners.count. -/
def detect_bg_color (img : Raster) : Color :=
  maxByCount (fun c => (cornersOf img).count c)
    (setElems (buildSet (cornersOf img)))

/-! ### int16 arithmetic and the foreground mask -/

/-- Interpretation of an integer as a 16-bit two-complement value. -/
def wrap16 (z : ℤ) : ℤ := (z + 32768) % 65536 - 32768

/-- numpy int16 subtraction. -/
def i16sub (a b : ℤ) : ℤ := wrap16 (a - b)

/-- numpy int16 absolute value (wraps on the most negative value). -/
def i16abs (z : ℤ) : ℤ := wrap16 |z|

/-- One channel of np.abs(arr.astype(np.int16) - bg) (line 41). -/
def chanDiff (a b : ℕ) : ℤ := i16abs (i16sub (a : ℤ) (b : ℤ))

/-- The foreground mask np.any(diff > tolerance, axis=2) at pixel
(y, x) (line 42). -/
def maskAt (img : Raster) (bg : Color) (tol : ℤ) (y x : ℕ) : Bool :=
  let p := img.pix y x
  decide (chanDiff p.1 bg.1 > tol) || decide (chanDiff p.2.1 bg.2.1 > tol) ||
    decide (chanDiff p.2.2 bg.2.2 > tol)

/-- The mask coordinates of one row, in ascending column order. -/
def rowCoords (img : Raster) (bg : Color) (tol : ℤ) (y : ℕ) : List (ℕ × ℕ) :=
  ((List.range img.w).filter fun x => maskAt img bg tol y x).map fun x => (y, x)

/-- np.argwhere(mask) (line 44): the list of (row, column) pairs of
foreground pixels in row-major order. -/
def coords (img : Raster) (bg : Color) (tol : ℤ) : List (ℕ × ℕ) :=
  (List.range img.h).flatMap (rowCoords img bg tol)

/-- coords.min(axis=0) on one component: minimum of a list of naturals,
0 on the empty list (unreachable in the program). -/
def colMin : List ℕ → ℕ
  | [] => 0
  | a :: as => as.foldl Nat.min a

/-- coords.max(axis=0) on one component. -/
def colMax : List ℕ → ℕ
  | [] => 0
  | a :: as => as.foldl Nat.max a

/-- autocrop (lines 26-52): detect the background, build the mask,
return the original raster with a warning (the Bool) when the mask is
empty, else crop to the bounding box (x0, y0, x1 + 1, y1 + 1). -/
def autocrop (img : Raster) (tol : ℤ) : Bool × Raster :=
  let bg := detect_bg_color img
  let cs := coords img bg tol
  if cs = [] then (true, img)
  else
    (false, img.crop (colMin (cs.map Prod.snd)) (colMin (cs.map Prod.fst))
      (colMax (cs.map Prod.snd) + 1) (colMax (cs.map Prod.fst) + 1))

/-- Modelled from the spec: the tie-breaking rule the spec asserts for
detect_bg_color, namely the first corner color attaining the maximal
count when the corners are scanned in the order top-left, top-right,
bottom-left, bottom-right. Used only to compare against the code. -/
def specCornerOrderMax (img : Raster) : Color :=
  maxByCount (fun c => (cornersOf img).count c) (cornersOf img)

/-! ### Auxiliary definitions for the proofs -/

/-- The probe index after k steps from start index i with perturb p. -/
def probeIdx : ℕ → Fin 8 → ℕ → Fin 8
  | 0, i, _ => i
  | k + 1, i, p => probeIdx k (nextIdx i (p >>> 5)) (p >>> 5)

/-- The pure probe step the sequence follows once the perturb is
exhausted. -/
def probeStep (i : Fin 8) : Fin 8 := nextIdx i 0

/-- The number of occupied slots of a set table. -/
def occ (t : Table8) : ℕ := Finset.card (Finset.univ.filter fun j => (t j).isSome)

/-! ### Concrete rasters used in the scenarios -/

/-- The 10 by 10 raster of the spec scenario: white everywhere except a
single black pixel at row 3, column 4. -/
def r10 : Raster :=
  ⟨10, 10, fun y x => if y = 3 ∧ x = 4 then (0, 0, 0) else (255, 255, 255)⟩

/-- The 4 by 4 all-white raster of the warning scenario. -/
def white4 : Raster := ⟨4, 4, fun _ _ => (255, 255, 255)⟩

/-- A 2 by 2 raster whose corner colors tie two against two: black in
the left column, off-black in the right column. -/
def tieR : Raster := ⟨2, 2, fun _ x => if x = 0 then (0, 0, 0) else (4, 4, 4)⟩

/-- A 2 by 2 raster with corners red, red, green, red. -/
def redR : Raster :=
  ⟨2, 2, fun y x => if y = 1 ∧ x = 0 then (0, 255, 0) else (255, 0, 0)⟩

/-- A 4 by 4 raster: a white border around a 2 by 2 block of three
black pixels and one off-black pixel. The first tolerance-0 autocrop
keeps exactly the block, whose corners then vote black, so a second
autocrop shrinks it again. -/
def shrinkR : Raster := ⟨4, 4, fun y x =>
  if 1 ≤ y ∧ y ≤ 2 ∧ 1 ≤ x ∧ x ≤ 2 then
    (if y = 2 ∧ x = 2 then (4, 4, 4) else (0, 0, 0))
  else (255, 255, 255)⟩

/-- A 5 by 5 white raster with a black plus sign in the middle: the
crop corners stay white, so the second detection returns white again
and the second autocrop keeps the size. -/
def plusR : Raster := ⟨5, 5, fun y x =>
  if (y = 1 ∧ x = 2) ∨ (y = 2 ∧ 1 ≤ x ∧ x ≤ 3) ∨ (y = 3 ∧ x = 2) then (0, 0, 0)
  else (255, 255, 255)⟩

/-- A 2 by 2 raster of assorted colors used as a generic witness
input. -/
def quadR : Raster := ⟨2, 2, fun y x =>
  if y = 0 then (if x = 0 then (10, 20, 30) else (40, 50, 60))
  else (if x = 0 then (70, 80, 90) else (10, 20, 30))⟩

/-! ### int16 arithmetic lemmas -/

/-- wrap16 is the identity on the int16 range. -/
theorem wrap16_eq_self {z : ℤ} (h1 : -32768 ≤ z) (h2 : z < 32768) : wrap16 z = z := by
  unfold wrap16
  rw [Int.emod_eq_of_lt (by omega) (by omega)]
  ring

/-- For 8-bit channel values the int16 difference pipeline computes the
exact mathematical absolute difference: no wraparound occurs. -/
theorem chanDiff_eq {a b : ℕ} (ha : a ≤ 255) (hb : b ≤ 255) :
    chanDiff a b = |(a : ℤ) - (b : ℤ)| := by
  unfold chanDiff i16sub i16abs
  have hsub : wrap16 ((a : ℤ) - (b : ℤ)) = (a : ℤ) - (b : ℤ) :=
    wrap16_eq_self (by omega) (by omega)
  rw [hsub]
  have habs : |(a : ℤ) - (b : ℤ)| ≤ 255 := abs_le.mpr ⟨by omega, by omega⟩
  have h0 : (0 : ℤ) ≤ |(a : ℤ) - (b : ℤ)| := abs_nonneg _
  exact wrap16_eq_self (by omega) (by omega)

/-- For 8-bit channel values the computed channel difference is
nonnegative. -/
theorem chanDiff_nonneg {a b : ℕ} (ha : a ≤ 255) (hb : b ≤ 255) :
    0 ≤ chanDiff a b := by
  rw [chanDiff_eq ha hb]; exact abs_nonneg _

/-! ### Minimum and maximum of coordinate lists -/

theorem foldl_min_le_init : ∀ (l : List ℕ) (a : ℕ), l.foldl Nat.min a ≤ a
  | [], a => le_refl a
  | b :: l, a => le_trans (foldl_min_le_init l (Nat.min a b)) (Nat.min_le_left a b)

theorem foldl_min_le_mem : ∀ (l : List ℕ) (a b : ℕ), b ∈ l → l.foldl Nat.min a ≤ b
  | c :: l, a, b, h => by
    rcases List.mem_cons.mp h with h | h
    · subst h; exact le_trans (foldl_min_le_init l _) (Nat.min_le_right a b)
    · exact foldl_min_le_mem l _ b h

theorem foldl_min_mem : ∀ (l : List ℕ) (a : ℕ),
    l.foldl Nat.min a = a ∨ l.foldl Nat.min a ∈ l
  | [], _ => Or.inl rfl
  | b :: l, a => by
    show l.foldl Nat.min (Nat.min a b) = a ∨ l.foldl Nat.min (Nat.min a b) ∈ b :: l
    rcases foldl_min_mem l (Nat.min a b) with h | h
    · by_cases hab : a ≤ b
      · exact Or.inl (h.trans (Nat.min_eq_left hab))
      · refine Or.inr ?_
        have h2 : l.foldl Nat.min (Nat.min a b) = b :=
          h.trans (Nat.min_eq_right (Nat.le_of_not_le hab))
        rw [h2]
        exact List.mem_cons_self b l
    · exact Or.inr (List.mem_cons_of_mem b h)

theorem foldl_max_init_le : ∀ (l : List ℕ) (a : ℕ), a ≤ l.foldl Nat.max a
  | [], a => le_refl a
  | b :: l, a => le_trans (Nat.le_max_left a b) (foldl_max_init_le l (Nat.max a b))

theorem foldl_max_mem_le : ∀ (l : List ℕ) (a b : ℕ), b ∈ l → b ≤ l.foldl Nat.max a
  | c :: l, a, b, h => by
    rcases List.mem_cons.mp h with h | h
    · subst h; exact le_trans (Nat.le_max_right a b) (foldl_max_init_le l _)
    · exact foldl_max_mem_le l _ b h

theorem foldl_max_mem : ∀ (l : List ℕ) (a : ℕ),
    l.foldl Nat.max a = a ∨ l.foldl Nat.max a ∈ l
  | [], _ => Or.inl rfl
  | b :: l, a => by
    show l.foldl Nat.max (Nat.max a b) = a ∨ l.foldl Nat.max (Nat.max a b) ∈ b :: l
    rcases foldl_max_mem l (Nat.max a b) with h | h
    · by_cases hab : a ≤ b
      · refine Or.inr ?_
        have h2 : l.foldl Nat.max (Nat.max a b) = b := h.trans (Nat.max_eq_right hab)
        rw [h2]
        exact List.mem_cons_self b l
      · exact Or.inl (h.trans (Nat.max_eq_left (Nat.le_of_not_le hab)))
    · exact Or.inr (List.mem_cons_of_mem b h)

/-- colMin is a lower bound of the list. -/
theorem colMin_le {l : List ℕ} {b : ℕ} (h : b ∈ l) : colMin l ≤ b := by
  cases l with
  | nil => cases h
  | cons a as =>
    rcases List.mem_cons.mp h with h | h
    · subst h; exact foldl_min_le_init as b
    · exact foldl_min_le_mem as a b h

/-- colMin of a nonempty list is attained. -/
theorem colMin_mem {l : List ℕ} (h : l ≠ []) : colMin l ∈ l := by
  cases l with
  | nil => exact absurd rfl h
  | cons a as =>
    show as.foldl Nat.min a ∈ a :: as
    rcases foldl_min_mem as a with h2 | h2
    · rw [h2]; exact List.mem_cons_self a as
    · exact List.mem_cons_of_mem a h2

/-- colMax is an upper bound of the list. -/
theorem le_colMax {l : List ℕ} {b : ℕ} (h : b ∈ l) : b ≤ colMax l := by
  cases l with
  | nil => cases h
  | cons a as =>
    rcases List.mem_cons.mp h with h | h
    · subst h; exact foldl_max_init_le as b
    · exact foldl_max_mem_le as a b h

/-- colMax of a nonempty list is attained. -/
theorem colMax_mem {l : List ℕ} (h : l ≠ []) : colMax l ∈ l := by
  cases l with
  | nil => exact absurd rfl h
  | cons a as =>
    show as.foldl Nat.max a ∈ a :: as
    rcases foldl_max_mem as a with h2 | h2
    · rw [h2]; exact List.mem_cons_self a as
    · exact List.mem_cons_of_mem a h2

/-! ### Coordinate list lemmas -/

/-- Membership in the argwhere list is exactly being an in-range
foreground pixel. -/
theorem mem_coords {img : Raster} {bg : Color} {tol : ℤ} {y x : ℕ} :
    (y, x) ∈ coords img bg tol ↔
      y < img.h ∧ x < img.w ∧ maskAt img bg tol y x = true := by
  unfold coords rowCoords
  simp only [List.mem_flatMap, List.mem_map, List.mem_filter, List.mem_range,
    Prod.mk.injEq]
  constructor
  · rintro ⟨a, ha, x', ⟨hx', hm⟩, hy, hx⟩
    subst hy; subst hx
    exact ⟨ha, hx', hm⟩
  · rintro ⟨hy, hx, hm⟩
    exact ⟨y, hy, x, ⟨hx, hm⟩, rfl, rfl⟩

/-- The argwhere list is empty exactly when no in-range pixel is
foreground. -/
theorem coords_nil_iff {img : Raster} {bg : Color} {tol : ℤ} :
    coords img bg tol = [] ↔
      ∀ y < img.h, ∀ x < img.w, maskAt img bg tol y x = false := by
  rw [List.eq_nil_iff_forall_not_mem]
  constructor
  · intro h y hy x hx
    by_contra hb
    exact h (y, x) (mem_coords.mpr ⟨hy, hx, by simpa using hb⟩)
  · rintro h ⟨y, x⟩ hmem
    rcases mem_coords.mp hmem with ⟨hy, hx, hm⟩
    rw [h y hy x hx] at hm
    cases hm

/-! ### autocrop branch lemmas -/

/-- The empty-mask branch of autocrop (lines 45-47). -/
theorem autocrop_of_nil {img : Raster} {tol : ℤ}
    (h : coords img (detect_bg_color img) tol = []) :
    autocrop img tol = (true, img) := by
  simp [autocrop, h]

/-- The cropping branch of autocrop (lines 49-52). -/
theorem autocrop_of_ne {img : Raster} {tol : ℤ}
    (h : coords img (detect_bg_color img) tol ≠ []) :
    autocrop img tol = (false, img.crop
      (colMin ((coords img (detect_bg_color img) tol).map Prod.snd))
      (colMin ((coords img (detect_bg_color img) tol).map Prod.fst))
      (colMax ((coords img (detect_bg_color img) tol).map Prod.snd) + 1)
      (colMax ((coords img (detect_bg_color img) tol).map Prod.fst) + 1)) := by
  simp [autocrop, h]

/-- Cropping to the whole image is the identity. -/
theorem crop_full (r : Raster) : r.crop 0 0 r.w r.h = r := rfl

/-! ### Set table lemmas -/

/-- The tuple hash is a 64-bit word. -/
theorem pyHashColor_lt (c : Color) : pyHashColor c < M64 := by
  unfold pyHashColor pyTupleHash3
  simp only []
  split
  · norm_num [M64]
  · exact Nat.mod_lt _ (by norm_num [M64])

theorem probeIdx_succ : ∀ (k : ℕ) (i : Fin 8) (p : ℕ),
    probeIdx (k + 1) i p = nextIdx (probeIdx k i p) (p >>> (5 * (k + 1)))
  | 0, i, p => by
    show nextIdx i (p >>> 5) = nextIdx i (p >>> (5 * 1))
    norm_num
  | k + 1, i, p => by
    show probeIdx (k + 1) (nextIdx i (p >>> 5)) (p >>> 5) =
      nextIdx (probeIdx k (nextIdx i (p >>> 5)) (p >>> 5)) (p >>> (5 * (k + 1 + 1)))
    rw [probeIdx_succ k (nextIdx i (p >>> 5)) (p >>> 5)]
    congr 1
    rw [← Nat.shiftRight_add]
    congr 1
    ring

/-- A 64-bit word shifted right by at least 64 bits vanishes. -/
theorem shiftRight_eq_zero {p n : ℕ} (hp : p < M64) (hn : 64 ≤ n) : p >>> n = 0 := by
  rw [Nat.shiftRight_eq_div_pow]
  apply Nat.div_eq_of_lt
  exact lt_of_lt_of_le hp (by unfold M64; exact Nat.pow_le_pow_right (by norm_num) hn)

/-- After 13 steps the perturb is exhausted and the probe sequence
follows the pure step. -/
theorem probeIdx_after13 : ∀ (m : ℕ) (i : Fin 8) (p : ℕ), p < M64 →
    probeIdx (13 + m) i p = probeStep^[m] (probeIdx 13 i p)
  | 0, _, _, _ => rfl
  | m + 1, i, p, hp => by
    have h1 : 13 + (m + 1) = (13 + m) + 1 := by ring
    rw [h1, probeIdx_succ]
    have h2 : p >>> (5 * (13 + m + 1)) = 0 := shiftRight_eq_zero hp (by omega)
    rw [h2]
    rw [probeIdx_after13 m i p hp]
    exact (Function.iterate_succ_apply' probeStep m _).symm

/-- Eight pure probe steps from any start reach every slot. -/
theorem probeStep_covers : ∀ s j : Fin 8, ∃ m : Fin 8, probeStep^[m.val] s = j := by decide

/-- With a free slot in the table, the probe sequence reaches a free
slot within the fuel bound. -/
theorem exists_probe_none {t : Table8} {j0 : Fin 8} (hj : t j0 = none)
    (i : Fin 8) {p : ℕ} (hp : p < M64) : ∃ k, k < 64 ∧ t (probeIdx k i p) = none := by
  obtain ⟨m, hm⟩ := probeStep_covers (probeIdx 13 i p) j0
  refine ⟨13 + m.val, by have := m.isLt; omega, ?_⟩
  rw [probeIdx_after13 m.val i p hp, hm, hj]

/-- If the probe sequence reaches, within the fuel, a slot that is free
or already holds the key, then insertion leaves the key in the table. -/
theorem probeIns_finds (h : ℕ) (key : Color) : ∀ (fuel : ℕ) (i : Fin 8) (p : ℕ) (t : Table8),
    (∃ k, k < fuel ∧ (t (probeIdx k i p) = none ∨ t (probeIdx k i p) = some (h, key))) →
    ∃ j, probeIns h key fuel i p t j = some (h, key) := by
  intro fuel
  induction fuel with
  | zero => rintro i p t ⟨k, hk, _⟩; omega
  | succ fuel ih =>
    rintro i p t ⟨k, hk, hhit⟩
    unfold probeIns
    cases hti : t i with
    | none =>
      simp only [hti]
      exact ⟨i, Function.update_same i _ t⟩
    | some e =>
      simp only [hti]
      by_cases he : e.1 = h ∧ e.2 = key
      · rw [if_pos he]
        refine ⟨i, ?_⟩
        rw [hti]
        have he2 : e = (h, key) := by
          obtain ⟨e1, e2⟩ := e
          simp only at he
          rw [he.1, he.2]
        rw [he2]
      · rw [if_neg he]
        apply ih
        rcases Nat.eq_zero_or_pos k with rfl | hk0
        · exfalso
          have hp0 : probeIdx 0 i p = i := rfl
          rw [hp0, hti] at hhit
          rcases hhit with h1 | h1
          · cases h1
          · have he2 : e = (h, key) := Option.some.inj h1
            exact he ⟨by rw [he2], by rw [he2]⟩
        · refine ⟨k - 1, by omega, ?_⟩
          have hk1 : k = (k - 1) + 1 := by omega
          rw [hk1] at hhit
          exact hhit

/-- Insertion never disturbs an existing entry. -/
theorem probeIns_preserve (h : ℕ) (key : Color) : ∀ (fuel : ℕ) (i : Fin 8) (p : ℕ)
    (t : Table8) (j : Fin 8) (e : ℕ × Color), t j = some e →
    probeIns h key fuel i p t j = some e := by
  intro fuel
  induction fuel with
  | zero => intro i p t j e hj; exact hj
  | succ fuel ih =>
    intro i p t j e hj
    unfold probeIns
    cases hti : t i with
    | none =>
      simp only [hti]
      have hne : j ≠ i := by
        intro hji
        rw [hji, hti] at hj
        cases hj
      rw [Function.update_noteq hne]
      exact hj
    | some e2 =>
      simp only [hti]
      by_cases he : e2.1 = h ∧ e2.2 = key
      · rw [if_pos he]; exact hj
      · rw [if_neg he]; exact ih _ _ _ _ _ hj

/-- Every entry of the table after insertion was present before or is
the inserted entry. -/
theorem probeIns_sub (h : ℕ) (key : Color) : ∀ (fuel : ℕ) (i : Fin 8) (p : ℕ)
    (t : Table8) (j : Fin 8) (e : ℕ × Color), probeIns h key fuel i p t j = some e →
    t j = some e ∨ e = (h, key) := by
  intro fuel
  induction fuel with
  | zero => intro i p t j e hj; exact Or.inl hj
  | succ fuel ih =>
    intro i p t j e hj
    unfold probeIns at hj
    cases hti : t i with
    | none =>
      rw [hti] at hj
      simp only at hj
      by_cases hji : j = i
      · rw [hji, Function.update_same] at hj
        exact Or.inr (Option.some.inj hj).symm
      · rw [Function.update_noteq hji] at hj
        exact Or.inl hj
    | some e2 =>
      rw [hti] at hj
      simp only at hj
      by_cases he : e2.1 = h ∧ e2.2 = key
      · rw [if_pos he] at hj; exact Or.inl hj
      · rw [if_neg he] at hj; exact ih _ _ _ _ _ hj

/-- Insertion occupies at most one more slot. -/
theorem probeIns_occ (h : ℕ) (key : Color) : ∀ (fuel : ℕ) (i : Fin 8) (p : ℕ)
    (t : Table8), occ (probeIns h key fuel i p t) ≤ occ t + 1 := by
  intro fuel
  induction fuel with
  | zero => intro i p t; exact Nat.le_succ _
  | succ fuel ih =>
    intro i p t
    unfold probeIns
    cases hti : t i with
    | none =>
      simp only [hti]
      have hsub : (Finset.univ.filter fun j =>
          ((Function.update t i (some (h, key))) j).isSome) ⊆
          insert i (Finset.univ.filter fun j => (t j).isSome) := by
        intro j hj
        rw [Finset.mem_filter] at hj
        by_cases hji : j = i
        · exact Finset.mem_insert.mpr (Or.inl hji)
        · rw [Function.update_noteq hji] at hj
          exact Finset.mem_insert_of_mem (Finset.mem_filter.mpr ⟨Finset.mem_univ j, hj.2⟩)
      calc Finset.card _ ≤ _ := Finset.card_le_card hsub
        _ ≤ _ + 1 := Finset.card_insert_le i _
    | some e2 =>
      simp only [hti]
      by_cases he : e2.1 = h ∧ e2.2 = key
      · rw [if_pos he]; exact Nat.le_succ _
      · rw [if_neg he]; exact ih _ _ _

/-- The empty table has no occupied slot. -/
theorem occ_empty : occ emptyTable = 0 := by
  unfold occ emptyTable
  simp

/-- A table with fewer than eight occupied slots has a free slot. -/
theorem exists_none_of_occ_lt {t : Table8} (h : occ t < 8) : ∃ j, t j = none := by
  by_contra hc
  push_neg at hc
  have hall : ∀ j, (t j).isSome := fun j => Option.ne_none_iff_isSome.mp (hc j)
  have hfull : (Finset.univ.filter fun j : Fin 8 => (t j).isSome) = Finset.univ :=
    Finset.filter_true_of_mem fun j _ => hall j
  have : occ t = 8 := by
    unfold occ
    rw [hfull, Finset.card_univ, Fintype.card_fin]
  omega

/-- Inserting into a table with a free slot leaves the key present. -/
theorem insColor_mem {t : Table8} (hfree : ∃ j, t j = none) (c : Color) :
    ∃ j, insColor t c j = some (pyHashColor c, c) := by
  obtain ⟨j0, hj0⟩ := hfree
  obtain ⟨k, hk, hnone⟩ := exists_probe_none hj0
    ⟨pyHashColor c % 8, Nat.mod_lt _ (by norm_num)⟩ (pyHashColor_lt c)
  exact probeIns_finds _ _ 64 _ _ t ⟨k, hk, Or.inl hnone⟩

/-- Insertion preserves existing entries. -/
theorem insColor_preserve {t : Table8} {j : Fin 8} {e : ℕ × Color}
    (hj : t j = some e) (c : Color) : insColor t c j = some e :=
  probeIns_preserve _ _ _ _ _ _ _ _ hj

/-- Insertion occupies at most one more slot. -/
theorem insColor_occ (t : Table8) (c : Color) : occ (insColor t c) ≤ occ t + 1 :=
  probeIns_occ _ _ _ _ _ _

/-- Entries after insertion come from the old table or are the inserted
entry. -/
theorem insColor_sub {t : Table8} {j : Fin 8} {e : ℕ × Color} (c : Color)
    (hj : insColor t c j = some e) : t j = some e ∨ e = (pyHashColor c, c) :=
  probeIns_sub _ _ _ _ _ _ _ _ hj

/-- Every one of four inserted colors ends up in the set table: four
insertions cannot fill the eight slots. -/
theorem buildSet_mem_corners (a b c d : Color) :
    ∀ x ∈ [a, b, c, d], ∃ j, buildSet [a, b, c, d] j = some (pyHashColor x, x) := by
  have hb : buildSet [a, b, c, d] =
      insColor (insColor (insColor (insColor emptyTable a) b) c) d := by
    rw [buildSet, List.foldl_cons, List.foldl_cons, List.foldl_cons, List.foldl_cons,
      List.foldl_nil]
  have f0 : ∃ j, emptyTable j = none := ⟨0, rfl⟩
  have o1 : occ (insColor emptyTable a) ≤ 1 := by
    have := insColor_occ emptyTable a
    rw [occ_empty] at this
    omega
  have f1 : ∃ j, insColor emptyTable a j = none := exists_none_of_occ_lt (by omega)
  have o2 : occ (insColor (insColor emptyTable a) b) ≤ 2 := by
    have := insColor_occ (insColor emptyTable a) b
    omega
  have f2 : ∃ j, insColor (insColor emptyTable a) b j = none :=
    exists_none_of_occ_lt (by omega)
  have o3 : occ (insColor (insColor (insColor emptyTable a) b) c) ≤ 3 := by
    have := insColor_occ (insColor (insColor emptyTable a) b) c
    omega
  have f3 : ∃ j, insColor (insColor (insColor emptyTable a) b) c j = none :=
    exists_none_of_occ_lt (by omega)
  intro x hx
  rw [hb]
  rcases List.mem_cons.mp hx with rfl | hx
  · obtain ⟨j, hj⟩ := insColor_mem f0 x
    exact ⟨j, insColor_preserve (insColor_preserve (insColor_preserve hj b) c) d⟩
  rcases List.mem_cons.mp hx with rfl | hx
  · obtain ⟨j, hj⟩ := insColor_mem f1 x
    exact ⟨j, insColor_preserve (insColor_preserve hj c) d⟩
  rcases List.mem_cons.mp hx with rfl | hx
  · obtain ⟨j, hj⟩ := insColor_mem f2 x
    exact ⟨j, insColor_preserve hj d⟩
  rcases List.mem_cons.mp hx with rfl | hx
  · exact insColor_mem f3 x
  · cases hx

/-- Entries of the built table all come from the inserted list. -/
theorem foldl_insColor_sub : ∀ (l : List Color) (t : Table8) (j : Fin 8) (e : ℕ × Color),
    (l.foldl insColor t) j = some e → t j = some e ∨ e.2 ∈ l
  | [], _, _, _, hj => Or.inl hj
  | c :: l, t, j, e, hj => by
    rcases foldl_insColor_sub l (insColor t c) j e hj with h1 | h1
    · rcases insColor_sub c h1 with h2 | h2
      · exact Or.inl h2
      · refine Or.inr ?_
        rw [h2]
        exact List.mem_cons_self c l
    · exact Or.inr (List.mem_cons_of_mem c h1)

/-- Membership in the iteration list of a set table. -/
theorem mem_setElems {t : Table8} {c : Color} :
    c ∈ setElems t ↔ ∃ j e, t j = some e ∧ e.2 = c := by
  unfold setElems
  rw [List.mem_filterMap]
  constructor
  · rintro ⟨j, _, hj⟩
    cases hte : t j with
    | none => rw [hte] at hj; cases hj
    | some e =>
      rw [hte] at hj
      exact ⟨j, e, hte, Option.some.inj (by simpa using hj)⟩
  · rintro ⟨j, e, hj, he⟩
    refine ⟨j, List.mem_finRange j, ?_⟩
    rw [hj]
    simpa using he

/-- The Python max fold returns an element of the list whose key is
maximal; on ties the earlier element wins. -/
theorem foldl_maxBy (cnt : Color → ℕ) : ∀ (es : List Color) (best : Color),
    (es.foldl (fun b c => if cnt c > cnt b then c else b) best ∈ best :: es) ∧
    cnt best ≤ cnt (es.foldl (fun b c => if cnt c > cnt b then c else b) best) ∧
    ∀ c ∈ es, cnt c ≤ cnt (es.foldl (fun b c => if cnt c > cnt b then c else b) best)
  | [], best => ⟨List.mem_cons_self _ _, le_refl _, fun c hc => absurd hc (List.not_mem_nil c)⟩
  | e :: es, best => by
    show (es.foldl (fun b c => if cnt c > cnt b then c else b)
        (if cnt e > cnt best then e else best) ∈ best :: e :: es) ∧
      cnt best ≤ cnt (es.foldl (fun b c => if cnt c > cnt b then c else b)
        (if cnt e > cnt best then e else best)) ∧
      ∀ c ∈ e :: es, cnt c ≤ cnt (es.foldl (fun b c => if cnt c > cnt b then c else b)
        (if cnt e > cnt best then e else best))
    obtain ⟨hmem, hle, hall⟩ := foldl_maxBy cnt es (if cnt e > cnt best then e else best)
    have hbb : cnt best ≤ cnt (if cnt e > cnt best then e else best) := by
      split
      · omega
      · exact le_refl _
    have heb : cnt e ≤ cnt (if cnt e > cnt best then e else best) := by
      split
      · exact le_refl _
      · omega
    refine ⟨?_, hbb.trans hle, ?_⟩
    · rcases List.mem_cons.mp hmem with h1 | h1
      · rw [h1]
        split
        · exact List.mem_cons_of_mem _ (List.mem_cons_self e es)
        · exact List.mem_cons_self _ _
      · exact List.mem_cons_of_mem _ (List.mem_cons_of_mem _ h1)
    · intro c hc
      rcases List.mem_cons.mp hc with rfl | hc
      · exact heb.trans hle
      · exact hall c hc

/-- detect_bg_color returns one of the four corner colors, and its
count among the corners is maximal. -/
theorem detect_max (img : Raster) :
    detect_bg_color img ∈ cornersOf img ∧
    ∀ c ∈ cornersOf img,
      (cornersOf img).count c ≤ (cornersOf img).count (detect_bg_color img) := by
  have hmem : ∀ x ∈ cornersOf img,
      ∃ j, buildSet (cornersOf img) j = some (pyHashColor x, x) :=
    buildSet_mem_corners _ _ _ _
  have helem : ∀ x ∈ cornersOf img, x ∈ setElems (buildSet (cornersOf img)) := by
    intro x hx
    obtain ⟨j, hj⟩ := hmem x hx
    exact mem_setElems.mpr ⟨j, (pyHashColor x, x), hj, rfl⟩
  have hsub : ∀ x ∈ setElems (buildSet (cornersOf img)), x ∈ cornersOf img := by
    intro x hx
    obtain ⟨j, e, hj, he⟩ := mem_setElems.mp hx
    rcases foldl_insColor_sub (cornersOf img) emptyTable j e hj with h1 | h1
    · cases h1
    · rw [← he]
      exact h1
  have hne : setElems (buildSet (cornersOf img)) ≠ [] := by
    intro hnil
    have h0 : img.pix 0 0 ∈ cornersOf img := List.mem_cons_self _ _
    have := helem _ h0
    rw [hnil] at this
    cases this
  cases helems : setElems (buildSet (cornersOf img)) with
  | nil => exact absurd helems hne
  | cons e es =>
    have hdet : detect_bg_color img =
        es.foldl (fun b c => if (cornersOf img).count c > (cornersOf img).count b
          then c else b) e := by
      unfold detect_bg_color
      rw [helems]
      rfl
    obtain ⟨hm, hl, ha⟩ := foldl_maxBy (fun c => (cornersOf img).count c) es e
    constructor
    · apply hsub
      rw [helems, hdet]
      exact hm
    · intro c hc
      have hce : c ∈ e :: es := by
        rw [← helems]
        exact helem c hc
      rw [hdet]
      rcases List.mem_cons.mp hce with rfl | hce
      · exact hl
      · exact ha c hce

/-- The detected background color, being one of the corner pixels of a
nonempty valid raster, has 8-bit channels. -/
theorem detect_valid {img : Raster} (hh : 1 ≤ img.h) (hw : 1 ≤ img.w) (hv : img.Valid) :
    (detect_bg_color img).1 ≤ 255 ∧ (detect_bg_color img).2.1 ≤ 255 ∧
      (detect_bg_color img).2.2 ≤ 255 := by
  have hm := (detect_max img).1
  unfold cornersOf at hm
  rcases List.mem_cons.mp hm with he | hm
  · rw [he]; exact hv 0 hh 0 hw
  rcases List.mem_cons.mp hm with he | hm
  · rw [he]; exact hv 0 hh (img.w - 1) (by omega)
  rcases List.mem_cons.mp hm with he | hm
  · rw [he]; exact hv (img.h - 1) (by omega) 0 hw
  rcases List.mem_cons.mp hm with he | hm
  · rw [he]; exact hv (img.h - 1) (by omega) (img.w - 1) (by omega)
  · cases hm

/-! ### The claims -/

/-- C1: for an 8-bit raster, an 8-bit background color and a tolerance
in [0, 255], the mask marks an in-range pixel as foreground exactly
when on some channel the exact integer absolute difference between the
pixel and the background strictly exceeds the tolerance; the widened
int16 pipeline computes the true mathematical absolute difference of
the 8-bit values, with no unsigned-subtraction wraparound. -/
theorem c1_mask_iff_absdiff (img : Raster) (bg : Color) (tol : ℤ) (y x : ℕ)
    (hy : y < img.h) (hx : x < img.w) (hv : img.Valid)
    (hbg : bg.1 ≤ 255 ∧ bg.2.1 ≤ 255 ∧ bg.2.2 ≤ 255)
    (ht0 : 0 ≤ tol) (ht255 : tol ≤ 255) :
    maskAt img bg tol y x = true ↔
      (tol < |((img.pix y x).1 : ℤ) - (bg.1 : ℤ)| ∨
       tol < |((img.pix y x).2.1 : ℤ) - (bg.2.1 : ℤ)| ∨
       tol < |((img.pix y x).2.2 : ℤ) - (bg.2.2 : ℤ)|) := by
  obtain ⟨h1, h2, h3⟩ := hv y hy x hx
  unfold maskAt
  simp only [Bool.or_eq_true, decide_eq_true_eq, gt_iff_lt]
  rw [chanDiff_eq h1 hbg.1, chanDiff_eq h2 hbg.2.1, chanDiff_eq h3 hbg.2.2]
  tauto

/-- Witness for C1: the black pixel of the 10 by 10 scenario raster is
foreground at tolerance 10 against white. -/
theorem c1_witness : maskAt r10 (255, 255, 255) 10 3 4 = true :=
  (c1_mask_iff_absdiff r10 (255, 255, 255) 10 3 4 (by decide) (by decide)
    (by decide) (by decide) (by norm_num) (by norm_num)).mpr (by decide)

/-- C3: when every in-range pixel is within tolerance of the detected
background, autocrop emits the warning and returns the original raster
itself, unchanged in dimensions and content. -/
theorem c3_all_background (img : Raster) (tol : ℤ)
    (h : ∀ y < img.h, ∀ x < img.w, maskAt img (detect_bg_color img) tol y x = false) :
    autocrop img tol = (true, img) :=
  autocrop_of_nil (coords_nil_iff.mpr h)

/-- Witness for C3: the 4 by 4 all-white raster at tolerance 10. -/
theorem c3_witness : autocrop white4 10 = (true, white4) :=
  c3_all_background white4 10 (by decide)

/-- C5: cropping a raster to an in-range bounding box (x0, y0, x1, y1)
given to Image.crop as (x0, y0, x1+1, y1+1) yields the raster of
dimensions (x1-x0+1) by (y1-y0+1) whose origin-translated pixels are
exactly the input pixels with row in [y0, y1] and column in [x0, x1];
when the box covers the whole image the result is the input. -/
theorem c5_crop_exact (r : Raster) (x0 y0 x1 y1 : ℕ)
    (hx01 : x0 ≤ x1) (hx1 : x1 < r.w) (hy01 : y0 ≤ y1) (hy1 : y1 < r.h) :
    (r.crop x0 y0 (x1 + 1) (y1 + 1)).h = y1 - y0 + 1 ∧
    (r.crop x0 y0 (x1 + 1) (y1 + 1)).w = x1 - x0 + 1 ∧
    (∀ y x, (r.crop x0 y0 (x1 + 1) (y1 + 1)).pix y x = r.pix (y + y0) (x + x0)) ∧
    (x0 = 0 → y0 = 0 → x1 = r.w - 1 → y1 = r.h - 1 →
      r.crop x0 y0 (x1 + 1) (y1 + 1) = r) := by
  refine ⟨by show y1 + 1 - y0 = y1 - y0 + 1; omega,
          by show x1 + 1 - x0 = x1 - x0 + 1; omega,
          fun y x => rfl, ?_⟩
  rintro rfl rfl rfl rfl
  have hw : r.w - 1 + 1 = r.w := by omega
  have hh : r.h - 1 + 1 = r.h := by omega
  rw [hw, hh]
  exact crop_full r

/-- Witness for C5 at the scenario raster and its 1 by 1 box. -/
theorem c5_witness :
    (r10.crop 4 3 5 4).h = 1 ∧ (r10.crop 4 3 5 4).w = 1 ∧
      (r10.crop 4 3 5 4).pix 0 0 = r10.pix 3 4 := by
  have h := c5_crop_exact r10 4 3 4 3 (by norm_num) (by decide) (by norm_num) (by decide)
  exact ⟨h.1, h.2.1, h.2.2.1 0 0⟩

/-- C6: every pixel foreground at the larger tolerance is foreground at
the smaller one, and the number of foreground pixels is monotonically
non-increasing in the tolerance. -/
theorem c6_mask_monotone (img : Raster) (bg : Color) (t1 t2 : ℤ) (h12 : t1 ≤ t2) :
    (∀ y x, maskAt img bg t2 y x = true → maskAt img bg t1 y x = true) ∧
    (coords img bg t2).length ≤ (coords img bg t1).length := by
  have hmask : ∀ y x, maskAt img bg t2 y x = true → maskAt img bg t1 y x = true := by
    intro y x h
    unfold maskAt at h ⊢
    simp only [Bool.or_eq_true, decide_eq_true_eq, gt_iff_lt] at h ⊢
    rcases h with (h | h) | h
    · exact Or.inl (Or.inl (lt_of_le_of_lt h12 h))
    · exact Or.inl (Or.inr (lt_of_le_of_lt h12 h))
    · exact Or.inr (lt_of_le_of_lt h12 h)
  refine ⟨hmask, ?_⟩
  have hlen : ∀ y, (rowCoords img bg t2 y).length ≤ (rowCoords img bg t1 y).length := by
    intro y
    unfold rowCoords
    rw [List.length_map, List.length_map]
    have hsub : List.Sublist ((List.range img.w).filter (fun x => maskAt img bg t2 y x))
        ((List.range img.w).filter (fun x => maskAt img bg t1 y x)) :=
      List.monotone_filter_right _ (fun x hx => hmask y x hx)
    exact hsub.length_le
  unfold coords
  rw [List.length_flatMap, List.length_flatMap]
  exact List.sum_le_sum (fun y _ => hlen y)

/-- Witness for C6: tolerances 0 and 10 on the scenario raster. -/
theorem c6_witness :
    (coords r10 (255, 255, 255) 10).length ≤ (coords r10 (255, 255, 255) 0).length :=
  (c6_mask_monotone r10 (255, 255, 255) 0 10 (by norm_num)).2

/-- C7: on the 10 by 10 white raster with a single black pixel at row 3
column 4, autocrop at tolerance 10 finds exactly that pixel, crops with
box (4, 3, 5, 4) and returns the 1 by 1 black image. -/
theorem c7_single_pixel :
    coords r10 (detect_bg_color r10) 10 = [(3, 4)] ∧
    autocrop r10 10 = (false, r10.crop 4 3 5 4) ∧
    (autocrop r10 10).2.h = 1 ∧ (autocrop r10 10).2.w = 1 ∧
    (autocrop r10 10).2.pix 0 0 = (0, 0, 0) :=
  ⟨by decide, rfl, by decide, by decide, by decide⟩

/-- C8: detect_bg_color always returns one of the four corner colors
and its count among the corners is maximal; in the concrete scenario
with corners red, red, green, red it returns red. -/
theorem c8_corner_majority :
    (∀ img : Raster, detect_bg_color img ∈ cornersOf img ∧
      ∀ c ∈ cornersOf img,
        (cornersOf img).count c ≤ (cornersOf img).count (detect_bg_color img)) ∧
    detect_bg_color redR = (255, 0, 0) :=
  ⟨detect_max, by decide⟩

/-- Witness for C8 at the red-green raster and the minority corner. -/
theorem c8_witness :
    (cornersOf redR).count (0, 255, 0) ≤ (cornersOf redR).count (detect_bg_color redR) :=
  (c8_corner_majority.1 redR).2 (0, 255, 0) (by decide)

/-- C4 as stated fails on the code: in the 2 by 2 tie raster the corner
colors tie two against two, the first color attaining the maximum in
corner reading order is black (the top-left corner), yet
detect_bg_color returns the off-black color, because the Python max
runs over the hash-ordered set of corners, not over the corner list. -/
theorem c4_counterexample :
    cornersOf tieR = [(0, 0, 0), (4, 4, 4), (0, 0, 0), (4, 4, 4)] ∧
    (cornersOf tieR).count (0, 0, 0) = 2 ∧ (cornersOf tieR).count (4, 4, 4) = 2 ∧
    specCornerOrderMax tieR = (0, 0, 0) ∧
    detect_bg_color tieR = (4, 4, 4) ∧
    detect_bg_color tieR ≠ specCornerOrderMax tieR :=
  ⟨by decide, by decide, by decide, by decide, by decide, by decide⟩

/-- C4 amended: on a tie between two distinct corner colors of maximal
count, detect_bg_color still returns one of the four corner colors and
its count attains that maximum; which tied color wins is decided by the
iteration order of the hash-based corner set, not by the top-left,
top-right, bottom-left, bottom-right reading order. -/
theorem c4_tie_detects_max (img : Raster) (hh : 1 ≤ img.h) (hw : 1 ≤ img.w)
    (ca cb : Color) (hca : ca ∈ cornersOf img) (hcb : cb ∈ cornersOf img)
    (hne : ca ≠ cb) (htie : (cornersOf img).count ca = (cornersOf img).count cb)
    (hmax : ∀ c ∈ cornersOf img, (cornersOf img).count c ≤ (cornersOf img).count ca) :
    detect_bg_color img ∈ cornersOf img ∧
    (cornersOf img).count (detect_bg_color img) = (cornersOf img).count ca := by
  obtain ⟨hm, hall⟩ := detect_max img
  exact ⟨hm, le_antisymm (hmax _ hm) (hall ca hca)⟩

/-- Witness for the amended C4 at the tie raster. -/
theorem c4_witness :
    detect_bg_color tieR ∈ cornersOf tieR ∧
    (cornersOf tieR).count (detect_bg_color tieR) = (cornersOf tieR).count (0, 0, 0) :=
  c4_tie_detects_max tieR (by decide) (by decide) (0, 0, 0) (4, 4, 4)
    (by decide) (by decide) (by decide) (by decide) (by decide)

/-- C2: when the foreground mask is non-empty, autocrop crops with the
half-open box (x0, y0, x1 + 1, y1 + 1), where y0/x0 are the minimum
row/column and y1/x1 the maximum row/column over the foreground pixels;
that rectangle covers every foreground pixel and each of its four
bounds is attained, so it is the minimal covering rectangle. -/
theorem c2_minimal_bbox (img : Raster) (tol : ℤ)
    (hne : ∃ y, y < img.h ∧ ∃ x, x < img.w ∧
      maskAt img (detect_bg_color img) tol y x = true) :
    autocrop img tol = (false, img.crop
      (colMin ((coords img (detect_bg_color img) tol).map Prod.snd))
      (colMin ((coords img (detect_bg_color img) tol).map Prod.fst))
      (colMax ((coords img (detect_bg_color img) tol).map Prod.snd) + 1)
      (colMax ((coords img (detect_bg_color img) tol).map Prod.fst) + 1)) ∧
    (∀ p ∈ coords img (detect_bg_color img) tol,
      colMin ((coords img (detect_bg_color img) tol).map Prod.fst) ≤ p.1 ∧
      p.1 ≤ colMax ((coords img (detect_bg_color img) tol).map Prod.fst) ∧
      colMin ((coords img (detect_bg_color img) tol).map Prod.snd) ≤ p.2 ∧
      p.2 ≤ colMax ((coords img (detect_bg_color img) tol).map Prod.snd)) ∧
    (∃ p ∈ coords img (detect_bg_color img) tol,
      p.1 = colMin ((coords img (detect_bg_color img) tol).map Prod.fst)) ∧
    (∃ p ∈ coords img (detect_bg_color img) tol,
      p.1 = colMax ((coords img (detect_bg_color img) tol).map Prod.fst)) ∧
    (∃ p ∈ coords img (detect_bg_color img) tol,
      p.2 = colMin ((coords img (detect_bg_color img) tol).map Prod.snd)) ∧
    (∃ p ∈ coords img (detect_bg_color img) tol,
      p.2 = colMax ((coords img (detect_bg_color img) tol).map Prod.snd)) := by
  obtain ⟨y, hy, x, hx, hm⟩ := hne
  have hmem : (y, x) ∈ coords img (detect_bg_color img) tol :=
    mem_coords.mpr ⟨hy, hx, hm⟩
  have hcs : coords img (detect_bg_color img) tol ≠ [] := List.ne_nil_of_mem hmem
  have hfst : (coords img (detect_bg_color img) tol).map Prod.fst ≠ [] :=
    fun hmn => hcs (List.map_eq_nil_iff.mp hmn)
  have hsnd : (coords img (detect_bg_color img) tol).map Prod.snd ≠ [] :=
    fun hmn => hcs (List.map_eq_nil_iff.mp hmn)
  refine ⟨autocrop_of_ne hcs, ?_, ?_, ?_, ?_, ?_⟩
  · intro p hp
    exact ⟨colMin_le (List.mem_map_of_mem Prod.fst hp),
           le_colMax (List.mem_map_of_mem Prod.fst hp),
           colMin_le (List.mem_map_of_mem Prod.snd hp),
           le_colMax (List.mem_map_of_mem Prod.snd hp)⟩
  · obtain ⟨p, hp, hpe⟩ := List.mem_map.mp (colMin_mem hfst)
    exact ⟨p, hp, hpe⟩
  · obtain ⟨p, hp, hpe⟩ := List.mem_map.mp (colMax_mem hfst)
    exact ⟨p, hp, hpe⟩
  · obtain ⟨p, hp, hpe⟩ := List.mem_map.mp (colMin_mem hsnd)
    exact ⟨p, hp, hpe⟩
  · obtain ⟨p, hp, hpe⟩ := List.mem_map.mp (colMax_mem hsnd)
    exact ⟨p, hp, hpe⟩

/-- Witness for C2: the crop equation of the 10 by 10 scenario. -/
theorem c2_witness :
    autocrop r10 10 = (false, r10.crop
      (colMin ((coords r10 (detect_bg_color r10) 10).map Prod.snd))
      (colMin ((coords r10 (detect_bg_color r10) 10).map Prod.fst))
      (colMax ((coords r10 (detect_bg_color r10) 10).map Prod.snd) + 1)
      (colMax ((coords r10 (detect_bg_color r10) 10).map Prod.fst) + 1)) :=
  (c2_minimal_bbox r10 10 ⟨3, by decide, 4, by decide, by decide⟩).1

/-- C10: with a negative tolerance on a nonempty 8-bit raster every
in-range pixel is foreground (each channel difference is at least 0 and
so strictly above the tolerance), the bounding box covers the whole
image, and autocrop returns the full-size raster with no warning. -/
theorem c10_negative_tolerance (img : Raster) (tol : ℤ) (hh : 1 ≤ img.h)
    (hw : 1 ≤ img.w) (hv : img.Valid) (ht : tol < 0) :
    (∀ y < img.h, ∀ x < img.w, maskAt img (detect_bg_color img) tol y x = true) ∧
    autocrop img tol = (false, img) := by
  have hbgv := detect_valid hh hw hv
  have hmask : ∀ y < img.h, ∀ x < img.w,
      maskAt img (detect_bg_color img) tol y x = true := by
    intro y hy x hx
    obtain ⟨h1, _, _⟩ := hv y hy x hx
    unfold maskAt
    simp only [Bool.or_eq_true, decide_eq_true_eq, gt_iff_lt]
    exact Or.inl (Or.inl (lt_of_lt_of_le ht (chanDiff_nonneg h1 hbgv.1)))
  refine ⟨hmask, ?_⟩
  have h00 : (0, 0) ∈ coords img (detect_bg_color img) tol :=
    mem_coords.mpr ⟨hh, hw, hmask 0 hh 0 hw⟩
  have h0w : (0, img.w - 1) ∈ coords img (detect_bg_color img) tol :=
    mem_coords.mpr ⟨hh, by omega, hmask 0 hh _ (by omega)⟩
  have hh0 : (img.h - 1, 0) ∈ coords img (detect_bg_color img) tol :=
    mem_coords.mpr ⟨by omega, hw, hmask _ (by omega) 0 hw⟩
  have hne : coords img (detect_bg_color img) tol ≠ [] := List.ne_nil_of_mem h00
  have hfst : (coords img (detect_bg_color img) tol).map Prod.fst ≠ [] :=
    fun hmn => hne (List.map_eq_nil_iff.mp hmn)
  have hsnd : (coords img (detect_bg_color img) tol).map Prod.snd ≠ [] :=
    fun hmn => hne (List.map_eq_nil_iff.mp hmn)
  have hxmin : colMin ((coords img (detect_bg_color img) tol).map Prod.snd) = 0 :=
    Nat.le_zero.mp (colMin_le (List.mem_map_of_mem Prod.snd h00))
  have hymin : colMin ((coords img (detect_bg_color img) tol).map Prod.fst) = 0 :=
    Nat.le_zero.mp (colMin_le (List.mem_map_of_mem Prod.fst h00))
  have hxmax : colMax ((coords img (detect_bg_color img) tol).map Prod.snd) = img.w - 1 := by
    apply le_antisymm
    · obtain ⟨⟨py, px⟩, hp, hpe⟩ := List.mem_map.mp (colMax_mem hsnd)
      obtain ⟨-, hpx, -⟩ := mem_coords.mp hp
      have hpx2 : px = colMax ((coords img (detect_bg_color img) tol).map Prod.snd) := hpe
      omega
    · exact le_colMax (List.mem_map_of_mem Prod.snd h0w)
  have hymax : colMax ((coords img (detect_bg_color img) tol).map Prod.fst) = img.h - 1 := by
    apply le_antisymm
    · obtain ⟨⟨py, px⟩, hp, hpe⟩ := List.mem_map.mp (colMax_mem hfst)
      obtain ⟨hpy, -, -⟩ := mem_coords.mp hp
      have hpy2 : py = colMax ((coords img (detect_bg_color img) tol).map Prod.fst) := hpe
      omega
    · exact le_colMax (List.mem_map_of_mem Prod.fst hh0)
  rw [autocrop_of_ne hne, hxmin, hymin, hxmax, hymax]
  have hw1 : img.w - 1 + 1 = img.w := by omega
  have hh1 : img.h - 1 + 1 = img.h := by omega
  rw [hw1, hh1, crop_full]

/-- Witness for C10 at a 2 by 2 raster with tolerance -1. -/
theorem c10_witness : autocrop quadR (-1) = (false, quadR) :=
  (c10_negative_tolerance quadR (-1) (by decide) (by decide) (by decide) (by norm_num)).2

/-- The mask of a cropped raster is the translated mask of the
original. -/
theorem crop_mask_shift (img : Raster) (bg : Color) (tol : ℤ)
    (left upper right lower : ℕ) (y x : ℕ) :
    maskAt (img.crop left upper right lower) bg tol y x =
      maskAt img bg tol (y + upper) (x + left) := rfl

/-- When the crop branch was taken and detection on the output returns
the same background, a second autocrop at the same tolerance returns
the output unchanged: every boundary row and column of the crop
contains a foreground pixel, so the second bounding box is the whole
cropped image. -/
theorem autocrop_fixed_point (img : Raster) (tol : ℤ)
    (hne : coords img (detect_bg_color img) tol ≠ [])
    (hbg : detect_bg_color ((autocrop img tol).2) = detect_bg_color img) :
    autocrop ((autocrop img tol).2) tol = (false, (autocrop img tol).2) := by
  have hac := autocrop_of_ne hne
  rw [hac] at hbg ⊢
  have hfst : (coords img (detect_bg_color img) tol).map Prod.fst ≠ [] :=
    fun hmn => hne (List.map_eq_nil_iff.mp hmn)
  have hsnd : (coords img (detect_bg_color img) tol).map Prod.snd ≠ [] :=
    fun hmn => hne (List.map_eq_nil_iff.mp hmn)
  -- names for the first bounding box
  set y0 := colMin ((coords img (detect_bg_color img) tol).map Prod.fst) with hy0
  set y1 := colMax ((coords img (detect_bg_color img) tol).map Prod.fst) with hy1
  set x0 := colMin ((coords img (detect_bg_color img) tol).map Prod.snd) with hx0
  set x1 := colMax ((coords img (detect_bg_color img) tol).map Prod.snd) with hx1
  set c := img.crop x0 y0 (x1 + 1) (y1 + 1) with hcdef
  simp only [] at hbg ⊢
  have hy01 : y0 ≤ y1 := by
    obtain ⟨p, hp, hpe⟩ := List.mem_map.mp (colMin_mem hfst)
    calc y0 = p.1 := hpe.symm
      _ ≤ y1 := le_colMax (List.mem_map_of_mem Prod.fst hp)
  have hx01 : x0 ≤ x1 := by
    obtain ⟨p, hp, hpe⟩ := List.mem_map.mp (colMin_mem hsnd)
    calc x0 = p.2 := hpe.symm
      _ ≤ x1 := le_colMax (List.mem_map_of_mem Prod.snd hp)
  have hch : c.h = y1 + 1 - y0 := rfl
  have hcw : c.w = x1 + 1 - x0 := rfl
  -- foreground pixels of c relative to the shared background
  have hmemc : ∀ py px, (py, px) ∈ coords img (detect_bg_color img) tol →
      (py - y0, px - x0) ∈ coords c (detect_bg_color img) tol := by
    intro py px hp
    obtain ⟨hpy, hpx, hpm⟩ := mem_coords.mp hp
    have hly : y0 ≤ py := colMin_le (List.mem_map_of_mem Prod.fst hp)
    have huy : py ≤ y1 := le_colMax (List.mem_map_of_mem Prod.fst hp)
    have hlx : x0 ≤ px := colMin_le (List.mem_map_of_mem Prod.snd hp)
    have hux : px ≤ x1 := le_colMax (List.mem_map_of_mem Prod.snd hp)
    refine mem_coords.mpr ⟨by omega, by omega, ?_⟩
    rw [hcdef, crop_mask_shift]
    have e1 : py - y0 + y0 = py := by omega
    have e2 : px - x0 + x0 = px := by omega
    rw [e1, e2]
    exact hpm
  -- the four attained bounds of the first box give boundary pixels of c
  obtain ⟨⟨ay, ax⟩, hamem, hae⟩ := List.mem_map.mp (colMin_mem hfst)
  obtain ⟨⟨by_, bx⟩, hbmem, hbe⟩ := List.mem_map.mp (colMax_mem hfst)
  obtain ⟨⟨cy, cx⟩, hcmem, hce⟩ := List.mem_map.mp (colMin_mem hsnd)
  obtain ⟨⟨dy, dx⟩, hdmem, hde⟩ := List.mem_map.mp (colMax_mem hsnd)
  have hae2 : ay = y0 := hae
  have hbe2 : by_ = y1 := hbe
  have hce2 : cx = x0 := hce
  have hde2 : dx = x1 := hde
  have ha := hmemc ay ax hamem
  have hb := hmemc by_ bx hbmem
  have hc2 := hmemc cy cx hcmem
  have hd := hmemc dy dx hdmem
  rw [hae2] at ha
  rw [hbe2] at hb
  rw [hce2] at hc2
  rw [hde2] at hd
  rw [Nat.sub_self] at ha hc2
  -- the second coordinate list is non-empty
  have hne2 : coords c (detect_bg_color img) tol ≠ [] := List.ne_nil_of_mem ha
  have hfst2 : (coords c (detect_bg_color img) tol).map Prod.fst ≠ [] :=
    fun hmn => hne2 (List.map_eq_nil_iff.mp hmn)
  have hsnd2 : (coords c (detect_bg_color img) tol).map Prod.snd ≠ [] :=
    fun hmn => hne2 (List.map_eq_nil_iff.mp hmn)
  -- the second bounding box is the whole of c
  have hymin2 : colMin ((coords c (detect_bg_color img) tol).map Prod.fst) = 0 :=
    Nat.le_zero.mp (colMin_le (List.mem_map_of_mem Prod.fst ha))
  have hxmin2 : colMin ((coords c (detect_bg_color img) tol).map Prod.snd) = 0 :=
    Nat.le_zero.mp (colMin_le (List.mem_map_of_mem Prod.snd hc2))
  have hymax2 : colMax ((coords c (detect_bg_color img) tol).map Prod.fst) = c.h - 1 := by
    apply le_antisymm
    · obtain ⟨⟨py, px⟩, hp, hpe⟩ := List.mem_map.mp (colMax_mem hfst2)
      obtain ⟨hpy, -, -⟩ := mem_coords.mp hp
      have hpy2 : py = colMax ((coords c (detect_bg_color img) tol).map Prod.fst) := hpe
      omega
    · have hb1 : (y1 - y0 : ℕ) ≤ colMax ((coords c (detect_bg_color img) tol).map Prod.fst) :=
        le_colMax (List.mem_map_of_mem Prod.fst hb)
      omega
  have hxmax2 : colMax ((coords c (detect_bg_color img) tol).map Prod.snd) = c.w - 1 := by
    apply le_antisymm
    · obtain ⟨⟨py, px⟩, hp, hpe⟩ := List.mem_map.mp (colMax_mem hsnd2)
      obtain ⟨-, hpx, -⟩ := mem_coords.mp hp
      have hpx2 : px = colMax ((coords c (detect_bg_color img) tol).map Prod.snd) := hpe
      omega
    · have hd1 : (x1 - x0 : ℕ) ≤ colMax ((coords c (detect_bg_color img) tol).map Prod.snd) :=
        le_colMax (List.mem_map_of_mem Prod.snd hd)
      omega
  -- assemble the second autocrop
  have hne2d : coords c (detect_bg_color c) tol ≠ [] := by
    rw [hbg]
    exact hne2
  rw [autocrop_of_ne hne2d, hbg, hymin2, hxmin2, hymax2, hxmax2]
  have hw1 : c.w - 1 + 1 = c.w := by omega
  have hh1 : c.h - 1 + 1 = c.h := by omega
  rw [hw1, hh1, crop_full]

/-- C9 as stated fails on the code: on shrinkR the first tolerance-0
autocrop takes the crop branch, the 2 by 2 output has no corner equal
to the previously detected background and no pixel of the output
matches that background at all, i.e. the crop removed all matching
border; yet the second tolerance-0 autocrop shrinks the image to
1 by 1. -/
theorem c9_counterexample :
    (autocrop shrinkR 0).1 = false ∧
    (autocrop shrinkR 0).2.h = 2 ∧ (autocrop shrinkR 0).2.w = 2 ∧
    detect_bg_color shrinkR ∉ cornersOf (autocrop shrinkR 0).2 ∧
    (∀ y < (autocrop shrinkR 0).2.h, ∀ x < (autocrop shrinkR 0).2.w,
      maskAt (autocrop shrinkR 0).2 (detect_bg_color shrinkR) 0 y x = true) ∧
    (autocrop (autocrop shrinkR 0).2 0).2.h = 1 ∧
    (autocrop (autocrop shrinkR 0).2 0).2.w = 1 :=
  ⟨by decide, by decide, by decide, by decide, by decide, by decide, by decide⟩

/-- C9 amended: a second tolerance-0 autocrop leaves the first output
unchanged provided the first run took the crop branch and the
background detected on the output equals the background detected on the
input; the corner condition stated in the spec does not suffice. -/
theorem c9_idempotent (img : Raster)
    (hwarn : (autocrop img 0).1 = false)
    (hbg : detect_bg_color ((autocrop img 0).2) = detect_bg_color img) :
    autocrop ((autocrop img 0).2) 0 = (false, (autocrop img 0).2) := by
  apply autocrop_fixed_point
  · intro hnil
    rw [autocrop_of_nil hnil] at hwarn
    exact Bool.noConfusion hwarn
  · exact hbg

/-- Witness for the amended C9: the 5 by 5 plus-sign raster. -/
theorem c9_witness :
    autocrop (autocrop plusR 0).2 0 = (false, (autocrop plusR 0).2) :=
  c9_idempotent plusR (by decide) (by decide)
